import Mathlib

/-!
Verification of the geohash codec (`geohash.go`, `extensive_test.go`).

Shallow embedding conventions:
* Go `uint32` / `uint64` values are `Nat` with explicit `% 2^32` / `% 2^64`
  wherever an operation in the source can overflow.
* Go `float64` arithmetic on coordinates is modelled by exact rational
  arithmetic over `ℚ` (no floating-point rounding); `math.Exp2(32)` is the
  exact constant `2^32`, and the float-to-`uint32` conversion in
  `encodeRange` is modelled as floor followed by truncation to 32 bits.
* Go strings are `List Char`.
* The base-32 alphabet codec (`base32encoding`) is referenced by the source
  but its defining file is not part of the sources; it is modelled from the
  specification, with the bit alignment fixed by its in-source callers and
  tests (see the doc comments on those definitions).
-/

namespace Geohash

/-- The modulus of Go's `uint64` type. -/
def U64 : Nat := 2 ^ 64

/-- One step of the bit-spreading ladder in `spread` (geohash.go:301-309):
`X = (X | (X << k)) & m`, with the `uint64` left shift wrapping mod `2^64`. -/
def stepL (X k m : Nat) : Nat := (X ||| ((X <<< k) % U64)) &&& m

/-- One step of the bit-squashing ladder in `squash` (geohash.go:319-327):
`X = (X | (X >> k)) & m`. -/
def stepR (X k m : Nat) : Nat := (X ||| (X >>> k)) &&& m

/-- `spread` from geohash.go:301-309: spread the 32 bits of `x` out into
64 bits occupying the even bit positions. -/
def spread (x : Nat) : Nat :=
  stepL (stepL (stepL (stepL (stepL x 16 0x0000ffff0000ffff)
    8 0x00ff00ff00ff00ff) 4 0x0f0f0f0f0f0f0f0f) 2 0x3333333333333333)
    1 0x5555555555555555

/-- `squash` from geohash.go:319-327: collapse the even bit positions of `X`
into a 32-bit word; the final mask `0x00000000ffffffff` together with Go's
value-preserving `uint32(X)` conversion keeps the result below `2^32`. -/
def squash (X : Nat) : Nat :=
  stepR (stepR (stepR (stepR (stepR (X &&& 0x5555555555555555)
    1 0x3333333333333333) 2 0x0f0f0f0f0f0f0f0f) 4 0x00ff00ff00ff00ff)
    8 0x0000ffff0000ffff) 16 0x00000000ffffffff

/-- `interleave` from geohash.go:313-315: `spread(x) | (spread(y) << 1)`,
the shift wrapping mod `2^64` as in Go. -/
def interleave (x y : Nat) : Nat := spread x ||| ((spread y <<< 1) % U64)

/-- `deinterleave` from geohash.go:331-333: `(squash(X), squash(X >> 1))`. -/
def deinterleave (X : Nat) : Nat × Nat := (squash X, squash (X >>> 1))

/-! ### Range codec (geohash.go:283-297), modelled over `ℚ` -/

/-- `exp232` (geohash.go:284): `math.Exp2(32)` is exactly `2^32`. -/
def exp232 : ℚ := 2 ^ 32

/-- `encodeRange` (geohash.go:287-290): `p := (x+r)/(2r); uint32(p * exp232)`.
The float64 arithmetic is modelled exactly over `ℚ`; the Go `uint32(·)`
conversion is modelled as floor followed by reduction mod `2^32` (the spec
describes the overflow at `x == r` as wrapping to 0). -/
def encodeRange (x r : ℚ) : Nat := ((⌊(x + r) / (2 * r) * exp232⌋ : Int) % (2 ^ 32 : Int)).toNat

/-- `decodeRange` (geohash.go:293-297): `p := X/exp232; 2*r*p - r`. -/
def decodeRange (X : Nat) (r : ℚ) : ℚ := 2 * r * ((X : ℚ) / exp232) - r

/-- `encodeInt` (geohash.go:55-59), the Go implementation of `EncodeInt`. -/
def encodeInt (lat lng : ℚ) : Nat := interleave (encodeRange lat 90) (encodeRange lng 180)

/-- `EncodeInt` (geohash.go:50): dispatches to `encodeInt`, its default
implementation. -/
def EncodeInt (lat lng : ℚ) : Nat := encodeInt lat lng

/-- `EncodeIntWithPrecision` (geohash.go:63-66): `EncodeInt(lat,lng) >> (64-bits)`. -/
def EncodeIntWithPrecision (lat lng : ℚ) (bits : Nat) : Nat :=
  EncodeInt lat lng >>> (64 - bits)

/-- `Box` (geohash.go:69-74). -/
structure Box where
  MinLat : ℚ
  MaxLat : ℚ
  MinLng : ℚ
  MaxLng : ℚ

/-- `Box.Center` (geohash.go:77-81). -/
def Box.Center (b : Box) : ℚ × ℚ := ((b.MinLat + b.MaxLat) / 2, (b.MinLng + b.MaxLng) / 2)

/-- `Box.Contains` (geohash.go:85-88), inclusive of edges and corners. -/
def Box.Contains (b : Box) (lat lng : ℚ) : Bool :=
  decide (b.MinLat ≤ lat) && decide (lat ≤ b.MaxLat) &&
    decide (b.MinLng ≤ lng) && decide (lng ≤ b.MaxLng)

/-- `maxDecimalPower` (geohash.go:94-97): `math.Pow10(int(math.Floor(math.Log10 r)))`,
modelled for positive rational `r` as `10 ^ (Int.log 10 r)`. -/
def maxDecimalPower (r : ℚ) : ℚ := (10 : ℚ) ^ (Int.log 10 r)

/-- `Box.Round` (geohash.go:101-107): per axis, `math.Ceil(min/x) * x` with
`x = maxDecimalPower(width)`. -/
def Box.Round (b : Box) : ℚ × ℚ :=
  ((⌈b.MinLat / maxDecimalPower (b.MaxLat - b.MinLat)⌉ : ℤ) *
      maxDecimalPower (b.MaxLat - b.MinLat),
    (⌈b.MinLng / maxDecimalPower (b.MaxLng - b.MinLng)⌉ : ℤ) *
      maxDecimalPower (b.MaxLng - b.MinLng))

/-- `errorWithPrecision` (geohash.go:111-118): `latBits = bits/2`,
`lngBits = bits - latBits`, errors `180 * 2^(-latBits)` and `360 * 2^(-lngBits)`
(`math.Ldexp` is exact here). -/
def errorWithPrecision (bits : Nat) : ℚ × ℚ :=
  (180 / 2 ^ (bits / 2), 360 / 2 ^ (bits - bits / 2))

/-- `BoundingBoxIntWithPrecision` (geohash.go:129-141); the Go left shift
`hash << (64-bits)` wraps mod `2^64`. -/
def BoundingBoxIntWithPrecision (hash : Nat) (bits : Nat) : Box :=
  let fullHash := (hash <<< (64 - bits)) % U64
  let lat := decodeRange (deinterleave fullHash).1 90
  let lng := decodeRange (deinterleave fullHash).2 180
  { MinLat := lat, MaxLat := lat + (errorWithPrecision bits).1,
    MinLng := lng, MaxLng := lng + (errorWithPrecision bits).2 }

/-- `BoundingBoxInt` (geohash.go:145-147). -/
def BoundingBoxInt (hash : Nat) : Box := BoundingBoxIntWithPrecision hash 64

/-! ### Base-32 alphabet codec

The source refers to a `base32encoding` value whose defining file is not
among the sources; it is modelled from the specification (§4.3). -/

/-- Modelled from the spec: the missing `base32encoding` module's alphabet,
the conventional 32-symbol set `0123456789bcdefghjkmnpqrstuvwxyz` (§4.3). -/
def alphabet : List Char :=
  ['0', '1', '2', '3', '4', '5', '6', '7', '8', '9', 'b', 'c', 'd', 'e', 'f', 'g',
   'h', 'j', 'k', 'm', 'n', 'p', 'q', 'r', 's', 't', 'u', 'v', 'w', 'x', 'y', 'z']

/-- Modelled from the spec: a 5-bit value is encoded as the symbol at its
index in the alphabet (§4.3). -/
def encodeDigit (d : Nat) : Char := alphabet.getD d '0'

/-- Modelled from the spec: `base32encoding.Encode` maps a 64-bit integer to
12 symbols, each one 5-bit group, read MSB-first (§4.3). The §4.3 prose
places the groups at bits 63..4, but that is inconsistent with the
in-source callers and tests, which are authoritative: `EncodeWithPrecision`
(geohash.go:34-39) feeds the right-aligned `inthash` and keeps
`enc[12-chars:]`, and `TestConvertIntToString` expects those characters to
be the base-32 digits of the right-aligned hash. The groups therefore
cover the low 60 bits, which also makes §4.5's description of the
composition come out right. -/
def base32Encode (x : Nat) : List Char :=
  (List.range 12).map (fun i => encodeDigit ((x >>> (5 * (11 - i))) % 32))

/-- Modelled from the spec: a symbol's 5-bit value is its index in the
alphabet (§4.3). -/
def charVal (c : Char) : Nat := alphabet.indexOf c

/-- Modelled from the spec: `base32encoding.Decode` is the inverse mapping,
symbol → 5-bit value, concatenated MSB-first (§4.3). The result is
right-aligned, as the in-source callers require (`BoundingBox` at
geohash.go:121-125 re-left-shifts it by `64-bits`, and
`TestConvertStringToInt` compares it against the right-shifted full hash). -/
def base32Decode (s : List Char) : Nat := s.foldl (fun x c => 32 * x + charVal c) 0

/-- Modelled from the spec: `base32encoding.ValidByte` is true iff the byte
is one of the 32 alphabet symbols (§4.3). -/
def ValidByte (c : Char) : Bool := alphabet.contains c

/-! ### String geohash codec (geohash.go:26-47, 120-125, 149-202) -/

/-- `EncodeWithPrecision` (geohash.go:34-39). -/
def EncodeWithPrecision (lat lng : ℚ) (chars : Nat) : List Char :=
  (base32Encode (EncodeIntWithPrecision lat lng (5 * chars))).drop (12 - chars)

/-- `Encode` (geohash.go:28-30). -/
def Encode (lat lng : ℚ) : List Char := EncodeWithPrecision lat lng 12

/-- `BoundingBox` (geohash.go:121-125). -/
def BoundingBox (hash : List Char) : Box :=
  BoundingBoxIntWithPrecision (base32Decode hash) (5 * hash.length)

/-- The two error values produced by `Validate` (geohash.go:150-164). -/
inductive GeoError where
  | tooLong : GeoError
  | invalidChar (c : Char) : GeoError
deriving DecidableEq

/-- `Validate` (geohash.go:150-164): length check first, then the first
byte outside the alphabet. -/
def Validate (hash : List Char) : Option GeoError :=
  if 5 * hash.length > 64 then some .tooLong
  else
    match hash.find? (fun c => ! ValidByte c) with
    | some c => some (.invalidChar c)
    | none => none

/-- `Decode` (geohash.go:167-170). -/
def Decode (hash : List Char) : ℚ × ℚ := (BoundingBox hash).Round

/-- `DecodeCenter` (geohash.go:173-176). -/
def DecodeCenter (hash : List Char) : ℚ × ℚ := (BoundingBox hash).Center

/-- `DecodeIntWithPrecision` (geohash.go:180-183). -/
def DecodeIntWithPrecision (hash bits : Nat) : ℚ × ℚ :=
  (BoundingBoxIntWithPrecision hash bits).Round

/-- `ConvertStringToInt` (geohash.go:192-194). -/
def ConvertStringToInt (hash : List Char) : Nat × Nat :=
  (base32Decode hash, 5 * hash.length)

/-- `ConvertIntToString` (geohash.go:199-202). -/
def ConvertIntToString (hash : Nat) (chars : Nat) : List Char :=
  (base32Encode hash).drop (12 - chars)

/-! ### Go-faithful fallible variants for the `chars > 12` behavior

`EncodeWithPrecision` and `ConvertIntToString` slice `enc[12-chars:]` with
`chars : uint`; for `chars > 12` the subtraction wraps around `2^64` and
the slice expression panics. The panic is modelled as `none`. -/

/-- Go `uint64`/`uint` subtraction, wrapping mod `2^64`. -/
def goSub64 (a b : Nat) : Nat := (a % U64 + U64 - b % U64) % U64

/-- Go slicing `s[i:]`: panics (modelled as `none`) when `i` exceeds the
length. -/
def goSliceFrom (s : List Char) (i : Nat) : Option (List Char) :=
  if i ≤ s.length then some (s.drop i) else none

/-- `EncodeWithPrecision` (geohash.go:34-39) with Go's `uint` arithmetic on
`chars` made explicit: `bits = 5*chars` wraps, the shift count `64-bits`
wraps (a Go shift by ≥ 64 yields 0, as does `Nat.shiftRight`), and the
slice lower bound `12-chars` wraps. -/
def EncodeWithPrecisionChecked (lat lng : ℚ) (chars : Nat) : Option (List Char) :=
  goSliceFrom (base32Encode (EncodeInt lat lng >>> goSub64 64 ((5 * chars) % U64)))
    (goSub64 12 chars)

/-- `ConvertIntToString` (geohash.go:199-202) with the wrapping slice bound
made explicit. -/
def ConvertIntToStringChecked (hash : Nat) (chars : Nat) : Option (List Char) :=
  goSliceFrom (base32Encode hash) (goSub64 12 chars)

/-- The `k` base-32 digits of `y`, MSB-first: the canonical form of the
last `k` characters of `base32Encode y`. -/
def charsOf (y k : Nat) : List Char :=
  (List.range k).map (fun j => encodeDigit ((y >>> (5 * (k - 1 - j))) % 32))


/-! ### Distribution of the ladder steps over bitwise or -/

theorem shiftLeft_lor (a b k : Nat) : (a ||| b) <<< k = (a <<< k) ||| (b <<< k) := by
  apply Nat.eq_of_testBit_eq
  intro i
  simp only [Nat.testBit_shiftLeft, Nat.testBit_or]
  cases Decidable.em (i ≥ k) with
  | inl h => simp [h]
  | inr h => simp [h]

theorem shiftRight_lor (a b k : Nat) : (a ||| b) >>> k = (a >>> k) ||| (b >>> k) := by
  apply Nat.eq_of_testBit_eq
  intro i
  simp [Nat.testBit_shiftRight, Nat.testBit_or]

theorem mod_two_pow_lor (a b n : Nat) : (a ||| b) % 2 ^ n = (a % 2 ^ n) ||| (b % 2 ^ n) := by
  apply Nat.eq_of_testBit_eq
  intro i
  simp only [Nat.testBit_mod_two_pow, Nat.testBit_or]
  cases Decidable.em (i < n) with
  | inl h => simp [h]
  | inr h => simp [h]

theorem land_lor_right (a b m : Nat) : (a ||| b) &&& m = (a &&& m) ||| (b &&& m) := by
  apply Nat.eq_of_testBit_eq
  intro i
  simp only [Nat.testBit_and, Nat.testBit_or]
  cases a.testBit i <;> cases b.testBit i <;> cases m.testBit i <;> rfl

theorem stepL_lor (a b k m : Nat) : stepL (a ||| b) k m = stepL a k m ||| stepL b k m := by
  apply Nat.eq_of_testBit_eq
  intro i
  simp only [stepL, U64, Nat.testBit_and, Nat.testBit_or, Nat.testBit_mod_two_pow,
    Nat.testBit_shiftLeft]
  cases a.testBit i <;> cases b.testBit i <;> cases a.testBit (i - k) <;>
    cases b.testBit (i - k) <;> cases hd : decide (i < 64) <;>
    cases hk : decide (i ≥ k) <;> cases m.testBit i <;> rfl

theorem stepR_lor (a b k m : Nat) : stepR (a ||| b) k m = stepR a k m ||| stepR b k m := by
  apply Nat.eq_of_testBit_eq
  intro i
  simp only [stepR, Nat.testBit_and, Nat.testBit_or, Nat.testBit_shiftRight]
  cases a.testBit i <;> cases b.testBit i <;> cases a.testBit (k + i) <;>
    cases b.testBit (k + i) <;> cases m.testBit i <;> rfl

theorem spread_lor (a b : Nat) : spread (a ||| b) = spread a ||| spread b := by
  unfold spread
  rw [stepL_lor, stepL_lor, stepL_lor, stepL_lor, stepL_lor]

theorem squash_lor (a b : Nat) : squash (a ||| b) = squash a ||| squash b := by
  unfold squash
  rw [land_lor_right, stepR_lor, stepR_lor, stepR_lor, stepR_lor, stepR_lor]

/-! ### Bit decomposition: a number as the or of its set bits -/

/-- The or of the bits of `x` below position `n`, each contributed as a
power of two. -/
def bitOrs (x : Nat) : Nat → Nat
  | 0 => 0
  | n + 1 => bitOrs x n ||| (if x.testBit n then 2 ^ n else 0)

theorem testBit_bitOrs (x n j : Nat) :
    (bitOrs x n).testBit j = (decide (j < n) && x.testBit j) := by
  induction n with
  | zero => simp [bitOrs]
  | succ n ih =>
    unfold bitOrs
    rw [Nat.testBit_or, ih]
    by_cases hb : x.testBit n
    · simp only [hb, if_pos]
      by_cases hj : j = n
      · subst hj
        simp [hb, Nat.testBit_two_pow]
      · have h2 : (2 ^ n).testBit j = false := by
          rw [Nat.testBit_two_pow]
          exact decide_eq_false (Ne.symm hj)
        rw [h2]
        by_cases hlt : j < n
        · simp [hlt, Nat.lt_succ_of_lt hlt]
        · have : ¬ j < n + 1 := by omega
          simp [hlt, this]
    · simp only [hb, if_neg, Bool.not_eq_true]
      simp only [if_neg hb, Nat.zero_testBit, Bool.or_false]
      by_cases hj : j = n
      · subst hj
        simp [hb, Nat.lt_irrefl]
      · by_cases hlt : j < n
        · simp [hlt, Nat.lt_succ_of_lt hlt]
        · have : ¬ j < n + 1 := by omega
          simp [hlt, this]

theorem bitOrs_self {x n : Nat} (hx : x < 2 ^ n) : bitOrs x n = x := by
  apply Nat.eq_of_testBit_eq
  intro j
  rw [testBit_bitOrs]
  by_cases hj : j < n
  · simp [hj]
  · have hxx : x < 2 ^ j := lt_of_lt_of_le hx (Nat.pow_le_pow_right (by norm_num) (by omega))
    simp [hj, Nat.testBit_lt_two_pow hxx]

/-! ### Action of `spread` and `squash` on single bits -/

theorem spread_two_pow : ∀ n < 32, spread (2 ^ n) = 2 ^ (2 * n) := by decide

theorem squash_two_pow :
    ∀ k < 64, squash (2 ^ k) = if k % 2 = 0 then 2 ^ (k / 2) else 0 := by decide

theorem spread_zero : spread 0 = 0 := by decide

theorem squash_zero : squash 0 = 0 := by decide

/-! ### TestBit characterizations of `spread` and `squash` -/

theorem testBit_spread_bitOrs (x : Nat) :
    ∀ n ≤ 32, ∀ j, (spread (bitOrs x n)).testBit j =
      (decide (j % 2 = 0) && decide (j < 2 * n) && x.testBit (j / 2)) := by
  intro n
  induction n with
  | zero => intro _ j; simp [bitOrs, spread_zero]
  | succ n ih =>
    intro hn j
    have hn' : n ≤ 32 := by omega
    have hn32 : n < 32 := by omega
    unfold bitOrs
    rw [spread_lor, Nat.testBit_or, ih hn' j]
    by_cases hb : x.testBit n
    · rw [if_pos hb, spread_two_pow n hn32, Nat.testBit_two_pow]
      by_cases hj : j = 2 * n
      · subst hj
        have h1 : 2 * n % 2 = 0 := by omega
        have h2 : ¬ (2 * n < 2 * n) := by omega
        have h3 : 2 * n < 2 * (n + 1) := by omega
        have h4 : 2 * n / 2 = n := by omega
        simp [h1, h2, h3, h4, hb]
      · have h5 : ¬ (2 * n = j) := fun h => hj h.symm
        rw [decide_eq_false h5, Bool.or_false]
        by_cases hpar : j % 2 = 0
        · have hdec : decide (j < 2 * n) = decide (j < 2 * (n + 1)) :=
            decide_eq_decide.mpr (by omega)
          rw [hdec]
        · simp [hpar]
    · rw [if_neg hb, spread_zero, Nat.zero_testBit, Bool.or_false]
      by_cases hj2 : j / 2 = n
      · have hxf : x.testBit (j / 2) = false := by rw [hj2]; exact Bool.eq_false_iff.mpr hb
        simp [hxf]
      · have hdec : decide (j < 2 * n) = decide (j < 2 * (n + 1)) :=
          decide_eq_decide.mpr (by omega)
        rw [hdec]

theorem testBit_spread {x : Nat} (hx : x < 2 ^ 32) (j : Nat) :
    (spread x).testBit j = (decide (j % 2 = 0) && x.testBit (j / 2)) := by
  conv_lhs => rw [← bitOrs_self hx]
  rw [testBit_spread_bitOrs x 32 (le_refl 32) j]
  by_cases hj : j < 64
  · simp [hj]
  · have h1 : ¬ (j < 2 * 32) := by omega
    have h2 : x.testBit (j / 2) = false := by
      apply Nat.testBit_lt_two_pow
      exact lt_of_lt_of_le hx (Nat.pow_le_pow_right (by norm_num) (by omega))
    simp [h1, h2]

theorem testBit_squash_bitOrs (X : Nat) :
    ∀ n ≤ 64, ∀ j, (squash (bitOrs X n)).testBit j =
      (decide (2 * j < n) && X.testBit (2 * j)) := by
  intro n
  induction n with
  | zero => intro _ j; simp [bitOrs, squash_zero]
  | succ n ih =>
    intro hn j
    have hn' : n ≤ 64 := by omega
    have hn64 : n < 64 := by omega
    unfold bitOrs
    rw [squash_lor, Nat.testBit_or, ih hn' j]
    by_cases hb : X.testBit n
    · rw [if_pos hb, squash_two_pow n hn64]
      by_cases hj : n = 2 * j
      · have hpar : n % 2 = 0 := by omega
        have hdiv : n / 2 = j := by omega
        rw [if_pos hpar, hdiv, Nat.testBit_two_pow]
        have h2 : ¬ (2 * j < n) := by omega
        have h3 : 2 * j < n + 1 := by omega
        rw [hj] at hb
        simp [h2, h3, hb]
      · have hne : (if n % 2 = 0 then 2 ^ (n / 2) else 0).testBit j = false := by
          by_cases hpar : n % 2 = 0
          · rw [if_pos hpar, Nat.testBit_two_pow]
            exact decide_eq_false (by omega)
          · simp [hpar]
        rw [hne, Bool.or_false]
        have hdec : decide (2 * j < n) = decide (2 * j < n + 1) :=
          decide_eq_decide.mpr (by omega)
        rw [hdec]
    · rw [if_neg hb, squash_zero, Nat.zero_testBit, Bool.or_false]
      by_cases hj : n = 2 * j
      · have hXf : X.testBit (2 * j) = false := by rw [← hj]; exact Bool.eq_false_iff.mpr hb
        simp [hXf]
      · have hdec : decide (2 * j < n) = decide (2 * j < n + 1) :=
          decide_eq_decide.mpr (by omega)
        rw [hdec]

theorem testBit_squash {X : Nat} (hX : X < 2 ^ 64) (j : Nat) :
    (squash X).testBit j = X.testBit (2 * j) := by
  conv_lhs => rw [← bitOrs_self hX]
  rw [testBit_squash_bitOrs X 64 (le_refl 64) j]
  by_cases hj : 2 * j < 64
  · simp [hj]
  · have h2 : X.testBit (2 * j) = false := by
      apply Nat.testBit_lt_two_pow
      exact lt_of_lt_of_le hX (Nat.pow_le_pow_right (by norm_num) (by omega))
    simp [hj, h2]

/-! ### Bounds for the bit ladder -/

theorem testBit_high {x n i : Nat} (hx : x < 2 ^ n) (hn : n ≤ i) : x.testBit i = false :=
  Nat.testBit_lt_two_pow (lt_of_lt_of_le hx (Nat.pow_le_pow_right (by norm_num) hn))

theorem lor_lt_two_pow {x y n : Nat} (hx : x < 2 ^ n) (hy : y < 2 ^ n) :
    x ||| y < 2 ^ n := by
  have h : (x ||| y) % 2 ^ n = x ||| y := by
    apply Nat.eq_of_testBit_eq
    intro i
    rw [Nat.testBit_mod_two_pow, Nat.testBit_or]
    by_cases hi : i < n
    · simp [hi]
    · have hxi := testBit_high hx (Nat.le_of_not_lt hi)
      have hyi := testBit_high hy (Nat.le_of_not_lt hi)
      simp [hi, hxi, hyi]
  rw [← h]
  exact Nat.mod_lt _ (Nat.pos_pow_of_pos n (by norm_num))

theorem spread_lt (x : Nat) : spread x < 2 ^ 64 := by
  have : spread x ≤ 0x5555555555555555 := Nat.and_le_right
  omega

theorem squash_lt (X : Nat) : squash X < 2 ^ 32 := by
  have : squash X ≤ 0x00000000ffffffff := Nat.and_le_right
  omega

theorem interleave_lt (x y : Nat) : interleave x y < 2 ^ 64 := by
  unfold interleave
  apply lor_lt_two_pow (spread_lt x)
  exact Nat.mod_lt _ (by norm_num [U64])

/-! ### TestBit characterization of `interleave` -/

theorem testBit_interleave {x y : Nat} (hx : x < 2 ^ 32) (hy : y < 2 ^ 32) (k : Nat) :
    (interleave x y).testBit k =
      if k % 2 = 0 then x.testBit (k / 2) else y.testBit (k / 2) := by
  unfold interleave
  rw [Nat.testBit_or]
  have hmod : (spread y <<< 1) % U64 = (spread y <<< 1) % 2 ^ 64 := by rw [U64]
  rw [hmod, Nat.testBit_mod_two_pow, Nat.testBit_shiftLeft, testBit_spread hx k]
  by_cases hpar : k % 2 = 0
  · rw [if_pos hpar, decide_eq_true hpar, Bool.true_and]
    by_cases hk0 : k = 0
    · subst hk0
      simp
    · have h1 : ¬ (k ≥ 1) = False := by simp; omega
      have hodd : (k - 1) % 2 = 1 := by omega
      rw [testBit_spread hy (k - 1)]
      have : decide ((k - 1) % 2 = 0) = false := decide_eq_false (by omega)
      simp [this]
  · rw [if_neg hpar, decide_eq_false hpar, Bool.false_and, Bool.false_or]
    have hk1 : k ≥ 1 := by omega
    rw [decide_eq_true hk1, Bool.true_and, testBit_spread hy (k - 1)]
    have hev : decide ((k - 1) % 2 = 0) = true := decide_eq_true (by omega)
    have hdiv : (k - 1) / 2 = k / 2 := by omega
    rw [hev, Bool.true_and, hdiv]
    by_cases hk64 : k < 64
    · simp [hk64]
    · have : y.testBit (k / 2) = false := testBit_high hy (by omega)
      simp [hk64, this]

theorem squash_interleave {x y : Nat} (hx : x < 2 ^ 32) (hy : y < 2 ^ 32) :
    squash (interleave x y) = x := by
  apply Nat.eq_of_testBit_eq
  intro j
  rw [testBit_squash (interleave_lt x y) j, testBit_interleave hx hy]
  have h1 : 2 * j % 2 = 0 := by omega
  have h2 : 2 * j / 2 = j := by omega
  rw [if_pos h1, h2]

theorem squash_interleave_shift {x y : Nat} (hx : x < 2 ^ 32) (hy : y < 2 ^ 32) :
    squash (interleave x y >>> 1) = y := by
  apply Nat.eq_of_testBit_eq
  intro j
  have hlt : interleave x y >>> 1 < 2 ^ 64 := by
    calc interleave x y >>> 1 = interleave x y / 2 ^ 1 := Nat.shiftRight_eq_div_pow _ _
    _ ≤ interleave x y := Nat.div_le_self _ _
    _ < 2 ^ 64 := interleave_lt x y
  rw [testBit_squash hlt j, Nat.testBit_shiftRight, testBit_interleave hx hy]
  have h1 : ¬ ((1 + 2 * j) % 2 = 0) := by omega
  have h2 : (1 + 2 * j) / 2 = j := by omega
  rw [if_neg h1, h2]

/-! ### The characters of a string geohash -/

theorem base32Encode_length (x : Nat) : (base32Encode x).length = 12 := by
  simp [base32Encode]

theorem charsOf_length (y k : Nat) : (charsOf y k).length = k := by
  simp [charsOf]

theorem drop_base32Encode (y : Nat) {k : Nat} (hk : k ≤ 12) :
    (base32Encode y).drop (12 - k) = charsOf y k := by
  apply List.ext_getElem
  · simp [base32Encode, charsOf]
    omega
  · intro j h1 h2
    rw [List.getElem_drop]
    have hj : j < k := by
      rw [charsOf_length] at h2
      exact h2
    simp only [base32Encode, charsOf, List.getElem_map, List.getElem_range]
    have hidx : 11 - (12 - k + j) = k - 1 - j := by omega
    rw [hidx]

theorem charsOf_shiftRight (full : Nat) {k : Nat} (hk : k ≤ 12) :
    charsOf (full >>> (64 - 5 * k)) k =
      (List.range k).map (fun j => encodeDigit ((full >>> (64 - 5 * (j + 1))) % 32)) := by
  unfold charsOf
  apply List.map_congr_left
  intro j hj
  rw [List.mem_range] at hj
  rw [← Nat.shiftRight_add]
  have hidx : 64 - 5 * k + 5 * (k - 1 - j) = 64 - 5 * (j + 1) := by omega
  rw [hidx]

theorem EncodeWithPrecision_eq (lat lng : ℚ) {k : Nat} (hk : k ≤ 12) :
    EncodeWithPrecision lat lng k =
      (List.range k).map
        (fun j => encodeDigit ((EncodeInt lat lng >>> (64 - 5 * (j + 1))) % 32)) := by
  unfold EncodeWithPrecision EncodeIntWithPrecision
  rw [drop_base32Encode _ hk, charsOf_shiftRight _ hk]

theorem EncodeWithPrecision_length (lat lng : ℚ) {k : Nat} (hk : k ≤ 12) :
    (EncodeWithPrecision lat lng k).length = k := by
  rw [EncodeWithPrecision_eq lat lng hk]
  simp

/-- C2: for every in-range point and every `1 ≤ k < 12`, the geohash at `k`
characters equals the first `k` characters of the geohash at `k+1`
characters, and also the first `k` characters of the 12-character `Encode`
result. -/
theorem encodeWithPrecision_take_succ (lat lng : ℚ)
    (hlat : -90 ≤ lat ∧ lat ≤ 90) (hlng : -180 ≤ lng ∧ lng ≤ 180)
    (k : Nat) (hk1 : 1 ≤ k) (hk : k < 12) :
    EncodeWithPrecision lat lng k = (EncodeWithPrecision lat lng (k + 1)).take k ∧
    EncodeWithPrecision lat lng k = (Encode lat lng).take k := by
  constructor
  · rw [EncodeWithPrecision_eq lat lng (le_of_lt hk),
      EncodeWithPrecision_eq lat lng (by omega : k + 1 ≤ 12),
      ← List.map_take, List.take_range, min_eq_left (Nat.le_succ k)]
  · unfold Encode
    rw [EncodeWithPrecision_eq lat lng (le_of_lt hk),
      EncodeWithPrecision_eq lat lng (le_refl 12),
      ← List.map_take, List.take_range, min_eq_left (by omega : k ≤ 12)]

/-- Witness for C2 at `(0, 0)`, `k = 1`. -/
theorem encodeWithPrecision_take_succ_witness :
    EncodeWithPrecision 0 0 1 = (EncodeWithPrecision 0 0 2).take 1 ∧
    EncodeWithPrecision 0 0 1 = (Encode 0 0).take 1 :=
  encodeWithPrecision_take_succ 0 0 ⟨by norm_num, by norm_num⟩
    ⟨by norm_num, by norm_num⟩ 1 (by norm_num) (by norm_num)

/-- C1: for all 32-bit `x` and `y`, `deinterleave (interleave x y) = (x, y)`,
and `interleave` places the bits of `x` at the even bit positions and the
bits of `y` at the odd bit positions of the 64-bit result. -/
theorem deinterleave_interleave (x y : Nat) (hx : x < 2 ^ 32) (hy : y < 2 ^ 32) :
    deinterleave (interleave x y) = (x, y) ∧
    (∀ i, (interleave x y).testBit (2 * i) = x.testBit i) ∧
    (∀ i, (interleave x y).testBit (2 * i + 1) = y.testBit i) := by
  refine ⟨?_, ?_, ?_⟩
  · unfold deinterleave
    rw [squash_interleave hx hy, squash_interleave_shift hx hy]
  · intro i
    rw [testBit_interleave hx hy]
    have h1 : 2 * i % 2 = 0 := by omega
    have h2 : 2 * i / 2 = i := by omega
    rw [if_pos h1, h2]
  · intro i
    rw [testBit_interleave hx hy]
    have h1 : ¬ ((2 * i + 1) % 2 = 0) := by omega
    have h2 : (2 * i + 1) / 2 = i := by omega
    rw [if_neg h1, h2]

/-- Witness for C1 at `x = 0xdeadbeef`, `y = 0x12345678`. -/
theorem deinterleave_interleave_witness :
    deinterleave (interleave 0xdeadbeef 0x12345678) = (0xdeadbeef, 0x12345678) :=
  (deinterleave_interleave 0xdeadbeef 0x12345678 (by norm_num) (by norm_num)).1

theorem encodeRange_lt (x r : ℚ) : encodeRange x r < 2 ^ 32 := by
  unfold encodeRange
  have h1 : (0 : ℤ) ≤ ⌊(x + r) / (2 * r) * exp232⌋ % (2 ^ 32 : ℤ) :=
    Int.emod_nonneg _ (by norm_num)
  have h2 : ⌊(x + r) / (2 * r) * exp232⌋ % (2 ^ 32 : ℤ) < 2 ^ 32 :=
    Int.emod_lt_of_pos _ (by norm_num)
  omega

/-- C7: `EncodeInt` is `interleave(encodeRange(lat,90), encodeRange(lng,180))`
with the latitude axis code at even and the longitude axis code at odd bit
positions, and for `1 ≤ bits ≤ 64`, `EncodeIntWithPrecision` is the full
hash shifted right by `64 - bits`. -/
theorem encodeInt_composition (lat lng : ℚ) :
    EncodeInt lat lng = interleave (encodeRange lat 90) (encodeRange lng 180) ∧
    (∀ i, (EncodeInt lat lng).testBit (2 * i) = (encodeRange lat 90).testBit i) ∧
    (∀ i, (EncodeInt lat lng).testBit (2 * i + 1) = (encodeRange lng 180).testBit i) ∧
    (∀ bits, 1 ≤ bits → bits ≤ 64 →
      EncodeIntWithPrecision lat lng bits = EncodeInt lat lng >>> (64 - bits)) := by
  refine ⟨rfl, ?_, ?_, fun bits _ _ => rfl⟩
  · intro i
    show (interleave (encodeRange lat 90) (encodeRange lng 180)).testBit (2 * i) = _
    rw [testBit_interleave (encodeRange_lt lat 90) (encodeRange_lt lng 180)]
    have h1 : 2 * i % 2 = 0 := by omega
    have h2 : 2 * i / 2 = i := by omega
    rw [if_pos h1, h2]
  · intro i
    show (interleave (encodeRange lat 90) (encodeRange lng 180)).testBit (2 * i + 1) = _
    rw [testBit_interleave (encodeRange_lt lat 90) (encodeRange_lt lng 180)]
    have h1 : ¬ ((2 * i + 1) % 2 = 0) := by omega
    have h2 : (2 * i + 1) / 2 = i := by omega
    rw [if_neg h1, h2]

/-- Witness for C7 at `(0, 0)`, `bits = 5`. -/
theorem encodeInt_composition_witness :
    EncodeIntWithPrecision 0 0 5 = EncodeInt 0 0 >>> (64 - 5) :=
  (encodeInt_composition 0 0).2.2.2 5 (by norm_num) (by norm_num)

/-! ### The base-32 decoder -/

theorem foldl_decode_aux (s : List Char) (a : Nat) :
    s.foldl (fun x c => 32 * x + charVal c) a = a * 32 ^ s.length + base32Decode s := by
  induction s generalizing a with
  | nil => simp [base32Decode]
  | cons c t ih =>
    show t.foldl _ (32 * a + charVal c) = _
    rw [ih (32 * a + charVal c)]
    have hc : base32Decode (c :: t) = t.foldl (fun x c => 32 * x + charVal c) (32 * 0 + charVal c) := rfl
    rw [hc, ih (32 * 0 + charVal c), List.length_cons]
    ring

theorem base32Decode_cons (c : Char) (t : List Char) :
    base32Decode (c :: t) = charVal c * 32 ^ t.length + base32Decode t := by
  show t.foldl (fun x c => 32 * x + charVal c) (32 * 0 + charVal c) = _
  rw [foldl_decode_aux t (32 * 0 + charVal c)]
  ring

theorem charVal_lt {c : Char} (h : ValidByte c = true) : charVal c < 32 := by
  have hmem : c ∈ alphabet := List.elem_iff.mp h
  have hidx := List.indexOf_lt_length.mpr hmem
  have hlen : alphabet.length = 32 := rfl
  unfold charVal
  omega

theorem base32Decode_lt {s : List Char} (h : ∀ c ∈ s, ValidByte c = true) :
    base32Decode s < 32 ^ s.length := by
  induction s with
  | nil => simp [base32Decode]
  | cons c t ih =>
    rw [base32Decode_cons]
    have hc : charVal c < 32 := charVal_lt (h c (List.mem_cons_self c t))
    have ht : base32Decode t < 32 ^ t.length := ih fun x hx => h x (List.mem_cons_of_mem _ hx)
    calc charVal c * 32 ^ t.length + base32Decode t
        < charVal c * 32 ^ t.length + 32 ^ t.length := by omega
      _ = (charVal c + 1) * 32 ^ t.length := by ring
      _ ≤ 32 * 32 ^ t.length := Nat.mul_le_mul_right _ (by omega)
      _ = 32 ^ (c :: t).length := by rw [List.length_cons]; ring

theorem base32Decode_testDigit {s : List Char} (h : ∀ c ∈ s, ValidByte c = true) :
    ∀ j (hj : j < s.length),
      (base32Decode s >>> (5 * (s.length - 1 - j))) % 32 = charVal (s.get ⟨j, hj⟩) := by
  induction s with
  | nil => intro j hj; simp at hj
  | cons c t ih =>
    intro j hj
    have hvc : charVal c < 32 := charVal_lt (h c (List.mem_cons_self c t))
    have hvt : ∀ x ∈ t, ValidByte x = true := fun x hx => h x (List.mem_cons_of_mem _ hx)
    have hdt : base32Decode t < 32 ^ t.length := base32Decode_lt hvt
    have hpow : (32 : Nat) ^ t.length = 2 ^ (5 * t.length) := by
      rw [show (32 : Nat) = 2 ^ 5 from rfl, ← pow_mul]
    rw [base32Decode_cons]
    match j with
    | 0 =>
      have hidx : (c :: t).length - 1 - 0 = t.length := by simp
      rw [hidx, Nat.shiftRight_eq_div_pow, ← hpow]
      rw [Nat.mul_comm (charVal c) (32 ^ t.length), Nat.mul_add_div (by positivity)]
      rw [Nat.div_eq_of_lt hdt, Nat.add_zero, Nat.mod_eq_of_lt hvc]
      rfl
    | j + 1 =>
      have hjt : j < t.length := by
        rw [List.length_cons] at hj
        omega
      have hidx : (c :: t).length - 1 - (j + 1) = t.length - 1 - j := by
        rw [List.length_cons]
        omega
      rw [hidx, Nat.shiftRight_eq_div_pow]
      have hsplit : charVal c * 32 ^ t.length =
          charVal c * 32 ^ (j + 1) * 2 ^ (5 * (t.length - 1 - j)) := by
        rw [Nat.mul_assoc]
        congr 1
        rw [show (32 : Nat) = 2 ^ 5 from rfl, ← pow_mul, ← pow_mul, ← pow_add]
        congr 1
        omega
      rw [hsplit, Nat.mul_comm (charVal c * 32 ^ (j + 1)) (2 ^ (5 * (t.length - 1 - j))),
        Nat.add_comm,
        Nat.add_mul_div_left _ _ (by positivity : 0 < 2 ^ (5 * (t.length - 1 - j)))]
      have hmod : (base32Decode t / 2 ^ (5 * (t.length - 1 - j)) + charVal c * 32 ^ (j + 1)) % 32 =
          base32Decode t / 2 ^ (5 * (t.length - 1 - j)) % 32 := by
        have h32 : charVal c * 32 ^ (j + 1) = charVal c * 32 ^ j * 32 := by ring
        rw [h32, Nat.add_mul_mod_self_right]
      rw [hmod]
      have hrec := ih hvt j hjt
      rw [Nat.shiftRight_eq_div_pow] at hrec
      rw [hrec]
      rfl

theorem charVal_encodeDigit : ∀ d < 32, charVal (encodeDigit d) = d := by decide

theorem mod_shiftRight_mod32 {y n m : Nat} (h : m + 5 ≤ n) :
    ((y % 2 ^ n) >>> m) % 32 = (y >>> m) % 32 := by
  apply Nat.eq_of_testBit_eq
  intro i
  rw [show (32 : Nat) = 2 ^ 5 from rfl]
  rw [Nat.testBit_mod_two_pow, Nat.testBit_mod_two_pow, Nat.testBit_shiftRight,
    Nat.testBit_shiftRight, Nat.testBit_mod_two_pow]
  by_cases hi : i < 5
  · have hin : m + i < n := by omega
    simp [hi, hin]
  · simp [hi]

theorem charsOf_succ (y k : Nat) :
    charsOf y (k + 1) = encodeDigit ((y >>> (5 * k)) % 32) :: charsOf (y % 2 ^ (5 * k)) k := by
  unfold charsOf
  rw [List.range_succ_eq_map, List.map_cons, List.map_map]
  congr 1
  apply List.map_congr_left
  intro j hj
  rw [List.mem_range] at hj
  show encodeDigit ((y >>> (5 * (k + 1 - 1 - (j + 1)))) % 32) = _
  rw [mod_shiftRight_mod32 (by omega : 5 * (k - 1 - j) + 5 ≤ 5 * k)]
  have hidx : k + 1 - 1 - (j + 1) = k - 1 - j := by omega
  rw [hidx]

theorem charsOf_decode (k : Nat) : ∀ y < 32 ^ k, base32Decode (charsOf y k) = y := by
  induction k with
  | zero =>
    intro y hy
    have : y = 0 := by omega
    subst this
    rfl
  | succ k ih =>
    intro y hy
    have hpow : (32 : Nat) ^ k = 2 ^ (5 * k) := by
      rw [show (32 : Nat) = 2 ^ 5 from rfl, ← pow_mul]
    rw [charsOf_succ, base32Decode_cons, charsOf_length,
      ih (y % 2 ^ (5 * k)) (by rw [hpow]; exact Nat.mod_lt _ (by positivity))]
    have hdiv : y >>> (5 * k) = y / 32 ^ k := by
      rw [Nat.shiftRight_eq_div_pow, hpow]
    have hlt : y / 32 ^ k < 32 := by
      rw [Nat.div_lt_iff_lt_mul (by positivity)]
      calc y < 32 ^ (k + 1) := hy
        _ = 32 * 32 ^ k := by ring
    rw [hdiv, Nat.mod_eq_of_lt hlt, charVal_encodeDigit _ hlt, ← hpow,
      Nat.mul_comm (y / 32 ^ k) (32 ^ k)]
    exact Nat.div_add_mod y (32 ^ k)

/-! ### C4: cross-representation equivalence -/

theorem shiftRight_lt_two_pow {x n m : Nat} (hx : x < 2 ^ n) (hm : m ≤ n) :
    x >>> m < 2 ^ (n - m) := by
  rw [Nat.shiftRight_eq_div_pow, Nat.div_lt_iff_lt_mul (by positivity)]
  calc x < 2 ^ n := hx
    _ = 2 ^ (n - m) * 2 ^ m := by rw [← pow_add]; congr 1; omega

theorem base32Decode_encodeWithPrecision (lat lng : ℚ) {k : Nat} (hk : k ≤ 12) :
    base32Decode (EncodeWithPrecision lat lng k) = EncodeInt lat lng >>> (64 - 5 * k) := by
  unfold EncodeWithPrecision EncodeIntWithPrecision
  rw [drop_base32Encode _ hk]
  apply charsOf_decode
  have h1 : EncodeInt lat lng >>> (64 - 5 * k) < 2 ^ (64 - (64 - 5 * k)) :=
    shiftRight_lt_two_pow (interleave_lt _ _) (by omega)
  have h2 : 64 - (64 - 5 * k) = 5 * k := by omega
  have h3 : (32 : Nat) ^ k = 2 ^ (5 * k) := by
    rw [show (32 : Nat) = 2 ^ 5 from rfl, ← pow_mul]
  rw [h2] at h1
  rw [h3]
  exact h1

/-- C4: for every in-range point and `1 ≤ k ≤ 12`, converting the `k`-char
string geohash back to an integer yields the full-precision integer hash
right-shifted by `64 - 5k`, paired with the precision `5k`. -/
theorem convertStringToInt_encodeWithPrecision (lat lng : ℚ)
    (hlat : -90 ≤ lat ∧ lat ≤ 90) (hlng : -180 ≤ lng ∧ lng ≤ 180)
    (k : Nat) (hk1 : 1 ≤ k) (hk : k ≤ 12) :
    ConvertStringToInt (EncodeWithPrecision lat lng k) =
      (EncodeInt lat lng >>> (64 - 5 * k), 5 * k) := by
  unfold ConvertStringToInt
  rw [base32Decode_encodeWithPrecision lat lng hk, EncodeWithPrecision_length lat lng hk]

/-- Witness for C4 at `(0, 0)`, `k = 1`. -/
theorem convertStringToInt_encodeWithPrecision_witness :
    ConvertStringToInt (EncodeWithPrecision 0 0 1) =
      (EncodeInt 0 0 >>> (64 - 5 * 1), 5 * 1) :=
  convertStringToInt_encodeWithPrecision 0 0 ⟨by norm_num, by norm_num⟩
    ⟨by norm_num, by norm_num⟩ 1 (by norm_num) (by norm_num)

/-! ### C5: alignment of the decoded value -/

/-- C5 counterexample: the valid one-character string "1" decodes to `1`,
whose low-order bits beyond the decoded 5 bits are not zero — the decoded
bits occupy the bottom of the 64-bit word, not the top. -/
theorem decode_left_aligned_counterexample :
    ValidByte '1' = true ∧ (['1'] : List Char).length < 12 ∧
    ¬ ((ConvertStringToInt ['1']).1 % 2 ^ (64 - 5 * (['1'] : List Char).length) = 0) := by
  decide

/-- C5 (amended): for every valid geohash string `H` with fewer than 12
characters, the decoder maps each symbol to its 5-bit value concatenated
MSB-first, and the decoded value is right-aligned: it occupies the low
`5*len(H)` bits of the 64-bit word, the bits above them being zero. -/
theorem convertStringToInt_right_aligned {s : List Char}
    (h : ∀ c ∈ s, ValidByte c = true) (hlen : s.length < 12) :
    (ConvertStringToInt s).1 < 2 ^ (5 * s.length) ∧
    ∀ j (hj : j < s.length),
      ((ConvertStringToInt s).1 >>> (5 * (s.length - 1 - j))) % 32 =
        charVal (s.get ⟨j, hj⟩) := by
  constructor
  · have hlt := base32Decode_lt h
    have h32 : (32 : Nat) ^ s.length = 2 ^ (5 * s.length) := by
      rw [show (32 : Nat) = 2 ^ 5 from rfl, ← pow_mul]
    show base32Decode s < 2 ^ (5 * s.length)
    rw [← h32]
    exact hlt
  · intro j hj
    exact base32Decode_testDigit h j hj

/-- Witness for the amended C5 at the string "s". -/
theorem convertStringToInt_right_aligned_witness :
    (ConvertStringToInt ['s']).1 < 2 ^ (5 * (['s'] : List Char).length) ∧
    ∀ j (hj : j < (['s'] : List Char).length),
      ((ConvertStringToInt ['s']).1 >>> (5 * ((['s'] : List Char).length - 1 - j))) % 32 =
        charVal ((['s'] : List Char).get ⟨j, hj⟩) :=
  convertStringToInt_right_aligned (by decide) (by decide)

/-! ### C9: validation -/

theorem validByte_encodeDigit : ∀ d < 32, ValidByte (encodeDigit d) = true := by decide

theorem validate_none_iff (s : List Char) :
    Validate s = none ↔ 5 * s.length ≤ 64 ∧ ∀ c ∈ s, ValidByte c = true := by
  unfold Validate
  by_cases hlen : 5 * s.length > 64
  · rw [if_pos hlen]
    constructor
    · intro h
      exact Option.noConfusion h
    · intro h
      omega
  · rw [if_neg hlen]
    cases hf : s.find? (fun c => ! ValidByte c) with
    | none =>
      simp only [hf]
      rw [List.find?_eq_none] at hf
      constructor
      · intro _
        refine ⟨by omega, fun c hc => ?_⟩
        have := hf c hc
        simpa using this
      · intro _
        trivial
    | some c =>
      simp only [hf]
      constructor
      · intro h
        exact Option.noConfusion h
      · intro h
        have hmem : c ∈ s := List.mem_of_find?_eq_some hf
        have hp := List.find?_some hf
        have hv := h.2 c hmem
        simp [hv] at hp

theorem find?_first (p : Char → Bool) :
    ∀ (s : List Char) (i : Nat) (hi : i < s.length),
      (∀ c ∈ s.take i, p c = false) → p (s.get ⟨i, hi⟩) = true →
      s.find? p = some (s.get ⟨i, hi⟩) := by
  intro s
  induction s with
  | nil => intro i hi; simp at hi
  | cons c t ih =>
    intro i hi hpre hp
    match i with
    | 0 => exact List.find?_cons_of_pos _ hp
    | i + 1 =>
      have hc : p c = false := by
        apply hpre c
        rw [List.take_succ_cons]
        exact List.mem_cons_self _ _
      rw [List.find?_cons_of_neg _ (by simp [hc])]
      exact ih i (by rw [List.length_cons] at hi; omega)
        (fun x hx => hpre x (by rw [List.take_succ_cons]; exact List.mem_cons_of_mem _ hx)) hp

theorem validate_first_invalid (s : List Char) (i : Nat) (hi : i < s.length)
    (hle : 5 * s.length ≤ 64) (hpre : ∀ c ∈ s.take i, ValidByte c = true)
    (hbad : ValidByte (s.get ⟨i, hi⟩) = false) :
    Validate s = some (GeoError.invalidChar (s.get ⟨i, hi⟩)) := by
  unfold Validate
  rw [if_neg (by omega)]
  have hfind := find?_first (fun c => ! ValidByte c) s i hi
    (fun c hc => by have := hpre c hc; simp [this])
    (by simp only [hbad, Bool.not_false])
  rw [hfind]

theorem validate_encodeWithPrecision (lat lng : ℚ) {chars : Nat} (hc : chars ≤ 12) :
    Validate (EncodeWithPrecision lat lng chars) = none := by
  rw [validate_none_iff]
  constructor
  · rw [EncodeWithPrecision_length lat lng hc]
    omega
  · intro c hmem
    rw [EncodeWithPrecision_eq lat lng hc] at hmem
    obtain ⟨j, _, rfl⟩ := List.mem_map.mp hmem
    exact validByte_encodeDigit _ (Nat.mod_lt _ (by norm_num))

/-- C9: `Validate` returns no error exactly when the string is at most 12
characters of alphabet symbols; it returns "too long" for 13 or more
characters (the length check taking priority); otherwise it reports the
first byte outside the alphabet (rejecting `a`, `i`, `l`, `o` and
uppercase); and every string produced by `EncodeWithPrecision` with
`chars ≤ 12` passes with no error. -/
theorem validate_spec :
    (∀ s : List Char, Validate s = none ↔ 5 * s.length ≤ 64 ∧ ∀ c ∈ s, ValidByte c = true) ∧
    (∀ s : List Char, 13 ≤ s.length → Validate s = some GeoError.tooLong) ∧
    (∀ (s : List Char) (i : Nat) (hi : i < s.length), 5 * s.length ≤ 64 →
      (∀ c ∈ s.take i, ValidByte c = true) → ValidByte (s.get ⟨i, hi⟩) = false →
      Validate s = some (GeoError.invalidChar (s.get ⟨i, hi⟩))) ∧
    (∀ (lat lng : ℚ) (chars : Nat), chars ≤ 12 →
      Validate (EncodeWithPrecision lat lng chars) = none) ∧
    (ValidByte 'a' = false ∧ ValidByte 'i' = false ∧ ValidByte 'l' = false ∧
      ValidByte 'o' = false ∧ ValidByte 'A' = false) := by
  refine ⟨validate_none_iff, ?_, validate_first_invalid, ?_, by decide⟩
  · intro s h13
    unfold Validate
    rw [if_pos (by omega)]
  · intro lat lng chars hc
    exact validate_encodeWithPrecision lat lng hc

/-- Witness for C9: the 13-character string of zeros is "too long", and a
string containing `A` fails on that character. -/
theorem validate_spec_witness :
    Validate ['0', '0', '0', '0', '0', '0', '0', '0', '0', '0', '0', '0', '0'] =
      some GeoError.tooLong :=
  validate_spec.2.1 ['0', '0', '0', '0', '0', '0', '0', '0', '0', '0', '0', '0', '0']
    (by decide)

/-! ### C10: behavior of the `enc[12-chars:]` slice -/

/-- C10: for `chars ≤ 12`, `EncodeWithPrecision` and `ConvertIntToString`
return a string of exactly `chars` characters; for `chars > 12` (any value
that fits in Go's `uint`) the unsigned subtraction `12 - chars` wraps and
the slice `enc[12-chars:]` panics instead of returning a value. -/
theorem encode_slice_bounds (lat lng : ℚ) (hash chars : Nat) (hch : chars < 2 ^ 64) :
    (chars ≤ 12 →
      EncodeWithPrecisionChecked lat lng chars = some (EncodeWithPrecision lat lng chars) ∧
      (EncodeWithPrecision lat lng chars).length = chars ∧
      ConvertIntToStringChecked hash chars = some (ConvertIntToString hash chars) ∧
      (ConvertIntToString hash chars).length = chars) ∧
    (12 < chars →
      EncodeWithPrecisionChecked lat lng chars = none ∧
      ConvertIntToStringChecked hash chars = none) := by
  constructor
  · intro hc
    have hsub12 : goSub64 12 chars = 12 - chars := by
      unfold goSub64 U64
      omega
    have hmod5 : (5 * chars) % U64 = 5 * chars := by
      unfold U64
      omega
    have hsub64 : goSub64 64 ((5 * chars) % U64) = 64 - 5 * chars := by
      rw [hmod5]
      unfold goSub64 U64
      omega
    refine ⟨?_, EncodeWithPrecision_length lat lng hc, ?_, ?_⟩
    · unfold EncodeWithPrecisionChecked goSliceFrom
      rw [hsub64, hsub12, base32Encode_length, if_pos (by omega : 12 - chars ≤ 12)]
      rfl
    · unfold ConvertIntToStringChecked goSliceFrom
      rw [hsub12, base32Encode_length, if_pos (by omega : 12 - chars ≤ 12)]
      rfl
    · unfold ConvertIntToString
      rw [List.length_drop, base32Encode_length]
      omega
  · intro hc
    have hsub12 : goSub64 12 chars = 12 + 2 ^ 64 - chars := by
      unfold goSub64 U64
      omega
    constructor
    · unfold EncodeWithPrecisionChecked goSliceFrom
      rw [hsub12, base32Encode_length, if_neg (by omega)]
    · unfold ConvertIntToStringChecked goSliceFrom
      rw [hsub12, base32Encode_length, if_neg (by omega)]

/-- Witness for C10 at `chars = 13`: both functions panic. -/
theorem encode_slice_bounds_witness :
    EncodeWithPrecisionChecked 0 0 13 = none ∧ ConvertIntToStringChecked 0 13 = none :=
  (encode_slice_bounds 0 0 0 13 (by norm_num)).2 (by norm_num)

/-! ### Truncation of hashes to a precision -/

theorem testBit_trunc (N p i : Nat) :
    (N >>> p <<< p).testBit i = (decide (p ≤ i) && N.testBit i) := by
  rw [Nat.testBit_shiftLeft, Nat.testBit_shiftRight]
  by_cases hip : p ≤ i
  · rw [decide_eq_true hip]
    have h2 : p + (i - p) = i := by omega
    rw [h2]
  · rw [decide_eq_false hip]
    simp

theorem trunc_eq_div_mul (N p : Nat) : N >>> p <<< p = N / 2 ^ p * 2 ^ p := by
  rw [Nat.shiftRight_eq_div_pow, Nat.shiftLeft_eq]

theorem trunc_le (N p : Nat) : N >>> p <<< p ≤ N := by
  rw [trunc_eq_div_mul]
  exact Nat.div_mul_le_self N (2 ^ p)

theorem lt_trunc_add (N p : Nat) : N < N >>> p <<< p + 2 ^ p := by
  rw [trunc_eq_div_mul]
  have hdm : N / 2 ^ p * 2 ^ p + N % 2 ^ p = N := by
    rw [Nat.mul_comm]
    exact Nat.div_add_mod N (2 ^ p)
  have hml : N % 2 ^ p < 2 ^ p := Nat.mod_lt N (by positivity)
  omega

theorem trunc_mod (N p : Nat) : (N >>> p <<< p) % 2 ^ p = 0 := by
  rw [trunc_eq_div_mul]
  exact Nat.mul_mod_left _ _

/-- Splitting the truncated interleaved hash back into axes truncates each
axis: the latitude axis keeps its top `bits/2` bits, the longitude axis its
top `bits - bits/2` bits. -/
theorem deinterleave_trunc {a b : Nat} (ha : a < 2 ^ 32) (hb : b < 2 ^ 32)
    {bits : Nat} (hb1 : 1 ≤ bits) (hb64 : bits ≤ 64) :
    (deinterleave ((interleave a b >>> (64 - bits) <<< (64 - bits)) % U64)).1 =
      a >>> (32 - bits / 2) <<< (32 - bits / 2) ∧
    (deinterleave ((interleave a b >>> (64 - bits) <<< (64 - bits)) % U64)).2 =
      b >>> (32 - (bits - bits / 2)) <<< (32 - (bits - bits / 2)) := by
  have hG : interleave a b >>> (64 - bits) <<< (64 - bits) < 2 ^ 64 :=
    lt_of_le_of_lt (trunc_le _ _) (interleave_lt a b)
  have hmod : (interleave a b >>> (64 - bits) <<< (64 - bits)) % U64 =
      interleave a b >>> (64 - bits) <<< (64 - bits) := by
    unfold U64
    exact Nat.mod_eq_of_lt hG
  rw [hmod]
  unfold deinterleave
  constructor
  · apply Nat.eq_of_testBit_eq
    intro j
    rw [testBit_squash hG j, testBit_trunc, testBit_trunc, testBit_interleave ha hb]
    have hpar : 2 * j % 2 = 0 := by omega
    have hdiv : 2 * j / 2 = j := by omega
    rw [if_pos hpar, hdiv]
    have hdec : decide (64 - bits ≤ 2 * j) = decide (32 - bits / 2 ≤ j) :=
      decide_eq_decide.mpr (by omega)
    rw [hdec]
  · apply Nat.eq_of_testBit_eq
    intro j
    have hG1 : interleave a b >>> (64 - bits) <<< (64 - bits) >>> 1 < 2 ^ 64 := by
      calc interleave a b >>> (64 - bits) <<< (64 - bits) >>> 1
          = (interleave a b >>> (64 - bits) <<< (64 - bits)) / 2 ^ 1 :=
            Nat.shiftRight_eq_div_pow _ _
        _ ≤ interleave a b >>> (64 - bits) <<< (64 - bits) := Nat.div_le_self _ _
        _ < 2 ^ 64 := hG
    rw [testBit_squash hG1 j, Nat.testBit_shiftRight, testBit_trunc, testBit_trunc,
      testBit_interleave ha hb]
    have hpar : ¬ ((1 + 2 * j) % 2 = 0) := by omega
    have hdiv : (1 + 2 * j) / 2 = j := by omega
    rw [if_neg hpar, hdiv]
    have hdec : decide (64 - bits ≤ 1 + 2 * j) = decide (32 - (bits - bits / 2) ≤ j) :=
      decide_eq_decide.mpr (by omega)
    rw [hdec]

/-- Re-encoding: if the truncations of the axis codes `a`, `b` agree with the
axes recovered from the left-aligned hash of `y`, then interleaving `a` and
`b` and shifting down recovers `y`. -/
theorem interleave_reencode {a b y : Nat} (ha : a < 2 ^ 32) (hb : b < 2 ^ 32)
    {bits : Nat} (hb1 : 1 ≤ bits) (hb64 : bits ≤ 64) (hy : y < 2 ^ bits)
    (hA : a >>> (32 - bits / 2) <<< (32 - bits / 2) = squash ((y <<< (64 - bits)) % U64))
    (hB : b >>> (32 - (bits - bits / 2)) <<< (32 - (bits - bits / 2)) =
      squash (((y <<< (64 - bits)) % U64) >>> 1)) :
    interleave a b >>> (64 - bits) = y := by
  have hyF : y <<< (64 - bits) < 2 ^ 64 := by
    rw [Nat.shiftLeft_eq]
    calc y * 2 ^ (64 - bits) < 2 ^ bits * 2 ^ (64 - bits) :=
          mul_lt_mul_of_pos_right hy (by positivity : (0 : Nat) < 2 ^ (64 - bits))
      _ = 2 ^ 64 := by rw [← pow_add]; congr 1; omega
  have hmodF : (y <<< (64 - bits)) % U64 = y <<< (64 - bits) := by
    unfold U64
    exact Nat.mod_eq_of_lt hyF
  rw [hmodF] at hA hB
  have hF1 : y <<< (64 - bits) >>> 1 < 2 ^ 64 := by
    calc y <<< (64 - bits) >>> 1 = y <<< (64 - bits) / 2 ^ 1 := Nat.shiftRight_eq_div_pow _ _
      _ ≤ y <<< (64 - bits) := Nat.div_le_self _ _
      _ < 2 ^ 64 := hyF
  apply Nat.eq_of_testBit_eq
  intro j
  rw [Nat.testBit_shiftRight, testBit_interleave ha hb]
  by_cases hj : j < bits
  · by_cases hpar : (64 - bits + j) % 2 = 0
    · rw [if_pos hpar]
      have hge : 32 - bits / 2 ≤ (64 - bits + j) / 2 := by omega
      have h1 : a.testBit ((64 - bits + j) / 2) =
          (a >>> (32 - bits / 2) <<< (32 - bits / 2)).testBit ((64 - bits + j) / 2) := by
        rw [testBit_trunc, decide_eq_true hge, Bool.true_and]
      rw [h1, hA, testBit_squash hyF, Nat.testBit_shiftLeft]
      have he : 2 * ((64 - bits + j) / 2) = 64 - bits + j := by omega
      rw [he, decide_eq_true (by omega : 64 - bits + j ≥ 64 - bits)]
      have hsub : 64 - bits + j - (64 - bits) = j := by omega
      rw [hsub, Bool.true_and]
    · rw [if_neg hpar]
      have hge : 32 - (bits - bits / 2) ≤ (64 - bits + j) / 2 := by omega
      have h1 : b.testBit ((64 - bits + j) / 2) =
          (b >>> (32 - (bits - bits / 2)) <<< (32 - (bits - bits / 2))).testBit
            ((64 - bits + j) / 2) := by
        rw [testBit_trunc, decide_eq_true hge, Bool.true_and]
      rw [h1, hB, testBit_squash hF1, Nat.testBit_shiftRight, Nat.testBit_shiftLeft]
      have he : 1 + 2 * ((64 - bits + j) / 2) = 64 - bits + j := by omega
      rw [he, decide_eq_true (by omega : 64 - bits + j ≥ 64 - bits)]
      have hsub : 64 - bits + j - (64 - bits) = j := by omega
      rw [hsub, Bool.true_and]
  · have h64 : 64 ≤ 64 - bits + j := by omega
    have hI : (if (64 - bits + j) % 2 = 0
        then a.testBit ((64 - bits + j) / 2) else b.testBit ((64 - bits + j) / 2)) = false := by
      by_cases hpar : (64 - bits + j) % 2 = 0
      · rw [if_pos hpar]
        exact testBit_high ha (by omega)
      · rw [if_neg hpar]
        exact testBit_high hb (by omega)
    rw [hI, testBit_high hy (by omega : bits ≤ j)]

/-! ### exact-arithmetic facts about the range codec -/

theorem encodeRange_bounds {x r : ℚ} (hr : 0 < r) (h1 : -r ≤ x) (h2 : x < r) :
    (encodeRange x r : ℚ) ≤ (x + r) / (2 * r) * exp232 ∧
    (x + r) / (2 * r) * exp232 < encodeRange x r + 1 := by
  set z := (x + r) / (2 * r) * exp232 with hz
  have h2r : (0 : ℚ) < 2 * r := by linarith
  have hz0 : 0 ≤ z := by
    apply mul_nonneg
    · apply div_nonneg <;> linarith
    · norm_num [exp232]
  have hzlt : z < 2 ^ 32 := by
    rw [hz]
    have hlt1 : (x + r) / (2 * r) < 1 := by
      rw [div_lt_one h2r]
      linarith
    calc (x + r) / (2 * r) * exp232 < 1 * exp232 := by
          apply mul_lt_mul_of_pos_right hlt1
          norm_num [exp232]
      _ = 2 ^ 32 := by norm_num [exp232]
  have hfl0 : (0 : ℤ) ≤ ⌊z⌋ := Int.floor_nonneg.mpr hz0
  have hflt : ⌊z⌋ < (2 : ℤ) ^ 32 := by
    rw [Int.floor_lt]
    calc z < 2 ^ 32 := hzlt
      _ = (((2 : ℤ) ^ 32 : ℤ) : ℚ) := by norm_num
  have hmod : ⌊z⌋ % ((2 : ℤ) ^ 32) = ⌊z⌋ := Int.emod_eq_of_lt hfl0 hflt
  have henc : ((encodeRange x r : Nat) : ℤ) = ⌊z⌋ := by
    unfold encodeRange
    rw [← hz, hmod, Int.toNat_of_nonneg hfl0]
  have hcast : ((encodeRange x r : Nat) : ℚ) = ((⌊z⌋ : ℤ) : ℚ) := by
    rw [← henc]
    push_cast
    ring
  constructor
  · rw [hcast]
    exact Int.floor_le z
  · rw [hcast]
    exact Int.lt_floor_add_one z

theorem exp232_pos : (0 : ℚ) < exp232 := by norm_num [exp232]

theorem pow_split_exp232 {p : Nat} (hp : p ≤ 32) : (2 : ℚ) ^ p * 2 ^ (32 - p) = exp232 := by
  rw [← pow_add]
  have h : p + (32 - p) = 32 := by omega
  rw [h]
  rfl

/-- Containment of a point in its own truncated-code cell: the decoded
minimum of the truncation is at most `x`, and `x` lies strictly within one
cell width above it. -/
theorem axis_contains {x r : ℚ} (hr : 0 < r) (h1 : -r ≤ x) (h2 : x < r)
    {p : Nat} (hp : p ≤ 32) :
    decodeRange (encodeRange x r >>> p <<< p) r ≤ x ∧
    x < decodeRange (encodeRange x r >>> p <<< p) r + 2 * r / 2 ^ (32 - p) := by
  obtain ⟨hlo, hhi⟩ := encodeRange_bounds hr h1 h2
  have hT1 : encodeRange x r >>> p <<< p ≤ encodeRange x r := trunc_le _ p
  have hT2 : encodeRange x r < encodeRange x r >>> p <<< p + 2 ^ p := lt_trunc_add _ p
  set N := encodeRange x r
  set T := N >>> p <<< p
  have h2r : (0 : ℚ) < 2 * r := by linarith
  have hTle : (T : ℚ) ≤ (x + r) / (2 * r) * exp232 := by
    calc (T : ℚ) ≤ (N : ℚ) := by exact_mod_cast hT1
      _ ≤ _ := hlo
  have hTgt : (x + r) / (2 * r) * exp232 < (T : ℚ) + 2 ^ p := by
    have hc : ((N : ℚ) + 1) ≤ (T : ℚ) + 2 ^ p := by exact_mod_cast hT2
    linarith
  have key1 : (T : ℚ) * (2 * r) ≤ (x + r) * exp232 := by
    have hmul := mul_le_mul_of_nonneg_right hTle (le_of_lt h2r)
    have hRR : (x + r) / (2 * r) * exp232 * (2 * r) = (x + r) * exp232 := by
      field_simp
    linarith
  have key2 : (x + r) * exp232 < ((T : ℚ) + 2 ^ p) * (2 * r) := by
    have hmul := mul_lt_mul_of_pos_right hTgt h2r
    have hRR : (x + r) / (2 * r) * exp232 * (2 * r) = (x + r) * exp232 := by
      field_simp
    linarith
  constructor
  · unfold decodeRange
    have hdl : 2 * r * ((T : ℚ) / exp232) ≤ x + r := by
      rw [mul_div_assoc', div_le_iff exp232_pos]
      calc 2 * r * (T : ℚ) = (T : ℚ) * (2 * r) := by ring
        _ ≤ (x + r) * exp232 := key1
    linarith
  · unfold decodeRange
    have hc0 : ((2 : ℚ) ^ (32 - p)) ≠ 0 := by positivity
    have hexp2 : 2 * r / 2 ^ (32 - p) * exp232 = 2 * r * 2 ^ p := by
      rw [← pow_split_exp232 hp]
      field_simp
      ring
    have hdl : x + r < 2 * r * ((T : ℚ) / exp232) + 2 * r / 2 ^ (32 - p) := by
      rw [← mul_lt_mul_right exp232_pos]
      have hL : (2 * r * ((T : ℚ) / exp232) + 2 * r / 2 ^ (32 - p)) * exp232 =
          ((T : ℚ) + 2 ^ p) * (2 * r) := by
        rw [add_mul, mul_div_assoc', div_mul_cancel₀ _ (ne_of_gt exp232_pos), hexp2]
        ring
      rw [hL]
      exact key2
    linarith

theorem aligned_div_mul {T p : Nat} (hal : T % 2 ^ p = 0) : T / 2 ^ p * 2 ^ p = T := by
  have hdm := Nat.div_add_mod T (2 ^ p)
  rw [Nat.mul_comm] at hdm
  omega

/-- Re-encoding: any `x` inside the half-open cell of an aligned code `T`
encodes back to a value whose truncation is exactly `T`. -/
theorem axis_reencode {x r : ℚ} (hr : 0 < r) {p : Nat} (hp : p ≤ 32) {T : Nat}
    (hT32 : T < 2 ^ 32) (hal : T % 2 ^ p = 0)
    (hx1 : decodeRange T r ≤ x) (hx2 : x < decodeRange T r + 2 * r / 2 ^ (32 - p)) :
    encodeRange x r >>> p <<< p = T := by
  have h2r : (0 : ℚ) < 2 * r := by linarith
  have hTub : T + 2 ^ p ≤ 2 ^ 32 := by
    have hdiv : T / 2 ^ p < 2 ^ (32 - p) := by
      rw [Nat.div_lt_iff_lt_mul (show 0 < 2 ^ p by positivity)]
      calc T < 2 ^ 32 := hT32
        _ = 2 ^ (32 - p) * 2 ^ p := by rw [← pow_add]; congr 1; omega
    calc T + 2 ^ p = T / 2 ^ p * 2 ^ p + 2 ^ p := by rw [aligned_div_mul hal]
      _ = (T / 2 ^ p + 1) * 2 ^ p := by ring
      _ ≤ 2 ^ (32 - p) * 2 ^ p := Nat.mul_le_mul_right _ (by omega)
      _ = 2 ^ 32 := by rw [← pow_add]; congr 1; omega
  have hx1dec : 2 * r * ((T : ℚ) / exp232) - r ≤ x := hx1
  have hx2dec : x < 2 * r * ((T : ℚ) / exp232) - r + 2 * r / 2 ^ (32 - p) := hx2
  have hx1r : -r ≤ x := by
    have hTQ : (0 : ℚ) ≤ 2 * r * ((T : ℚ) / exp232) := by
      apply mul_nonneg (by linarith)
      exact div_nonneg (Nat.cast_nonneg T) (le_of_lt exp232_pos)
    linarith
  have hexp2 : 2 * r / 2 ^ (32 - p) * exp232 = 2 * r * 2 ^ p := by
    rw [← pow_split_exp232 hp]
    field_simp
    ring
  have hkey2 : (x + r) * exp232 < ((T : ℚ) + 2 ^ p) * (2 * r) := by
    have hx2'' : x + r < 2 * r * ((T : ℚ) / exp232) + 2 * r / 2 ^ (32 - p) := by linarith
    have h := mul_lt_mul_of_pos_right hx2'' exp232_pos
    have hL : (2 * r * ((T : ℚ) / exp232) + 2 * r / 2 ^ (32 - p)) * exp232 =
        ((T : ℚ) + 2 ^ p) * (2 * r) := by
      rw [add_mul, mul_div_assoc', div_mul_cancel₀ _ (ne_of_gt exp232_pos), hexp2]
      ring
    linarith
  have hTcast : ((T : ℚ) + 2 ^ p) ≤ 2 ^ 32 := by exact_mod_cast hTub
  have hx2r : x < r := by
    have hb : (x + r) * exp232 < 2 ^ 32 * (2 * r) :=
      lt_of_lt_of_le hkey2 (mul_le_mul_of_nonneg_right hTcast (le_of_lt h2r))
    have he : exp232 = (2 : ℚ) ^ 32 := rfl
    rw [he] at hb
    linarith
  obtain ⟨hlo, hhi⟩ := encodeRange_bounds hr hx1r hx2r
  have hkey1 : (T : ℚ) * (2 * r) ≤ (x + r) * exp232 := by
    have hx1'' : 2 * r * ((T : ℚ) / exp232) ≤ x + r := by linarith
    have h := mul_le_mul_of_nonneg_right hx1'' (le_of_lt exp232_pos)
    have hL : 2 * r * ((T : ℚ) / exp232) * exp232 = (T : ℚ) * (2 * r) := by
      rw [mul_div_assoc', div_mul_cancel₀ _ (ne_of_gt exp232_pos)]
      ring
    linarith
  have hzT : (T : ℚ) ≤ (x + r) / (2 * r) * exp232 := by
    rw [show (x + r) / (2 * r) * exp232 = (x + r) * exp232 / (2 * r) from by ring,
      le_div_iff h2r]
    exact hkey1
  have hzTub : (x + r) / (2 * r) * exp232 < (T : ℚ) + 2 ^ p := by
    rw [show (x + r) / (2 * r) * exp232 = (x + r) * exp232 / (2 * r) from by ring,
      div_lt_iff h2r]
    exact hkey2
  have hN1 : T ≤ encodeRange x r := by
    have hq : (T : ℚ) < (encodeRange x r : ℚ) + 1 := lt_of_le_of_lt hzT hhi
    have : (T : Nat) < encodeRange x r + 1 := by exact_mod_cast hq
    omega
  have hN2 : encodeRange x r < T + 2 ^ p := by
    have hq : (encodeRange x r : ℚ) < (T : ℚ) + 2 ^ p := lt_of_le_of_lt hlo hzTub
    exact_mod_cast hq
  rw [trunc_eq_div_mul]
  have hsplit : encodeRange x r = 2 ^ p * (T / 2 ^ p) + (encodeRange x r - T) := by
    have hq := aligned_div_mul hal
    rw [Nat.mul_comm] at hq
    omega
  rw [hsplit, Nat.mul_add_div (by positivity),
    Nat.div_eq_of_lt (by omega : encodeRange x r - T < 2 ^ p), Nat.add_zero]
  exact aligned_div_mul hal

/-! ### `Box.Round` stays inside a half-open cell -/

theorem maxDecimalPower_pos (w : ℚ) : 0 < maxDecimalPower w := by
  unfold maxDecimalPower
  exact zpow_pos (by norm_num) _

theorem maxDecimalPower_lt {w : ℚ} (hw : 0 < w) (hne : ∀ m : ℤ, (10 : ℚ) ^ m ≠ w) :
    maxDecimalPower w < w := by
  have hle := Int.zpow_log_le_self (show 1 < 10 by norm_num) hw
  have hle' : (10 : ℚ) ^ (Int.log 10 w) ≤ w := by
    calc (10 : ℚ) ^ (Int.log 10 w) = ((10 : ℕ) : ℚ) ^ (Int.log 10 w) := by norm_num
      _ ≤ w := hle
  exact lt_of_le_of_ne hle' (hne _)

theorem round_in_cell {minv w : ℚ} (hw : 0 < w) (hlt : maxDecimalPower w < w) :
    minv ≤ (⌈minv / maxDecimalPower w⌉ : ℤ) * maxDecimalPower w ∧
    (⌈minv / maxDecimalPower w⌉ : ℤ) * maxDecimalPower w < minv + w := by
  have hxp : 0 < maxDecimalPower w := maxDecimalPower_pos w
  constructor
  · have h := Int.le_ceil (minv / maxDecimalPower w)
    calc minv = minv / maxDecimalPower w * maxDecimalPower w := by
          field_simp
      _ ≤ (⌈minv / maxDecimalPower w⌉ : ℚ) * maxDecimalPower w :=
          mul_le_mul_of_nonneg_right h (le_of_lt hxp)
  · have h := Int.ceil_lt_add_one (minv / maxDecimalPower w)
    calc ((⌈minv / maxDecimalPower w⌉ : ℤ) : ℚ) * maxDecimalPower w
        < (minv / maxDecimalPower w + 1) * maxDecimalPower w :=
          mul_lt_mul_of_pos_right h hxp
      _ = minv + maxDecimalPower w := by
          field_simp
      _ < minv + w := by linarith

theorem ten_zpow_ne_div {N : ℕ} (h3 : 3 ∣ N) (hN : 0 < N) (k : Nat) :
    ∀ m : ℤ, (10 : ℚ) ^ m ≠ (N : ℚ) / 2 ^ k := by
  intro m hm
  have h3p : Nat.Prime 3 := by norm_num
  cases m with
  | ofNat a =>
    rw [Int.ofNat_eq_coe, zpow_natCast] at hm
    have hq : (10 : ℚ) ^ a * 2 ^ k = (N : ℚ) := by
      field_simp at hm
      linarith [hm]
    have hNat : 10 ^ a * 2 ^ k = N := by exact_mod_cast hq
    have h3d : (3 : ℕ) ∣ 10 ^ a * 2 ^ k := hNat ▸ h3
    rcases (Nat.Prime.dvd_mul h3p).mp h3d with h | h
    · have := Nat.Prime.dvd_of_dvd_pow h3p h
      norm_num at this
    · have := Nat.Prime.dvd_of_dvd_pow h3p h
      norm_num at this
  | negSucc a =>
    rw [zpow_negSucc] at hm
    have hq : (2 : ℚ) ^ k = (N : ℚ) * 10 ^ (a + 1) := by
      field_simp at hm
      linarith [hm]
    have hNat : 2 ^ k = N * 10 ^ (a + 1) := by exact_mod_cast hq
    have h3d : (3 : ℕ) ∣ 2 ^ k := by
      rw [hNat]
      exact Dvd.dvd.mul_right h3 _
    have := Nat.Prime.dvd_of_dvd_pow h3p h3d
    norm_num at this

/-! ### C3: containment of the original point in its bounding box -/

/-- C3 counterexample: at the inclusive upper boundary `lng = 180` the axis
code wraps to 0 and the box does not contain the point: with `bits = 1`,
the box of the hash of `(0, 180)` is `[-90, 90] × [-180, 0]`. -/
theorem boundingBox_contains_boundary :
    -90 ≤ (0 : ℚ) ∧ (0 : ℚ) ≤ 90 ∧ -180 ≤ (180 : ℚ) ∧ (180 : ℚ) ≤ 180 ∧
    (BoundingBoxIntWithPrecision (EncodeIntWithPrecision 0 180 1) 1).Contains 0 180 =
      false := by
  refine ⟨by norm_num, by norm_num, by norm_num, by norm_num, ?_⟩
  have e1 : encodeRange 0 90 = 2 ^ 31 := by
    unfold encodeRange
    have harg : ((0 : ℚ) + 90) / (2 * 90) * exp232 = (((2 : ℤ) ^ 31 : ℤ) : ℚ) := by
      norm_num [exp232]
    rw [harg, Int.floor_intCast]
    decide
  have e2 : encodeRange 180 180 = 0 := by
    unfold encodeRange
    have harg : ((180 : ℚ) + 180) / (2 * 180) * exp232 = (((2 : ℤ) ^ 32 : ℤ) : ℚ) := by
      norm_num [exp232]
    rw [harg, Int.floor_intCast]
    decide
  have e3 : EncodeIntWithPrecision 0 180 1 = 0 := by
    unfold EncodeIntWithPrecision EncodeInt encodeInt
    rw [e1, e2]
    decide
  rw [e3]
  have hbox : BoundingBoxIntWithPrecision 0 1 =
      { MinLat := -90, MaxLat := 90, MinLng := -180, MaxLng := 0 } := by
    have h0 : ((0 : Nat) <<< (64 - 1)) % U64 = 0 := by decide
    simp only [BoundingBoxIntWithPrecision, errorWithPrecision, deinterleave, h0]
    have hsq : squash 0 = 0 := squash_zero
    have hsh : (0 : Nat) >>> 1 = 0 := by decide
    rw [hsh, hsq]
    unfold decodeRange
    norm_num [exp232]
  rw [hbox]
  unfold Box.Contains
  have hd4 : decide ((180 : ℚ) ≤ (0 : ℚ)) = false := decide_eq_false (by norm_num)
  simp only [hd4, Bool.and_false]

/-- C3 (amended): for every latitude in `[-90, 90)`, longitude in
`[-180, 180)` (the closed upper edges wrap, see the counterexample), and
every precision — `1..64` bits for the integer form, `1..12` characters for
the string form — the bounding box derived from the hash of the point
contains the point. -/
theorem boundingBox_contains (lat lng : ℚ) (hlat1 : -90 ≤ lat) (hlat2 : lat < 90)
    (hlng1 : -180 ≤ lng) (hlng2 : lng < 180) :
    (∀ bits, 1 ≤ bits → bits ≤ 64 →
      (BoundingBoxIntWithPrecision (EncodeIntWithPrecision lat lng bits) bits).Contains
        lat lng = true) ∧
    (∀ chars, 1 ≤ chars → chars ≤ 12 →
      (BoundingBox (EncodeWithPrecision lat lng chars)).Contains lat lng = true) := by
  have hint : ∀ bits, 1 ≤ bits → bits ≤ 64 →
      (BoundingBoxIntWithPrecision (EncodeIntWithPrecision lat lng bits) bits).Contains
        lat lng = true := by
    intro bits hb1 hb64
    have ha := encodeRange_lt lat 90
    have hb := encodeRange_lt lng 180
    obtain ⟨hd1, hd2⟩ := deinterleave_trunc ha hb hb1 hb64
    have hplat : 32 - bits / 2 ≤ 32 := by omega
    have hplng : 32 - (bits - bits / 2) ≤ 32 := by omega
    have hlatc := axis_contains (show (0 : ℚ) < 90 by norm_num) hlat1 hlat2 hplat
    have hlngc := axis_contains (show (0 : ℚ) < 180 by norm_num) hlng1 hlng2 hplng
    have hw1 : 32 - (32 - bits / 2) = bits / 2 := by omega
    have hw2 : 32 - (32 - (bits - bits / 2)) = bits - bits / 2 := by omega
    rw [hw1] at hlatc
    rw [hw2] at hlngc
    have h180 : (2 : ℚ) * 90 = 180 := by norm_num
    have h360 : (2 : ℚ) * 180 = 360 := by norm_num
    rw [h180] at hlatc
    rw [h360] at hlngc
    have hbox : BoundingBoxIntWithPrecision (EncodeIntWithPrecision lat lng bits) bits =
        { MinLat := decodeRange
            (encodeRange lat 90 >>> (32 - bits / 2) <<< (32 - bits / 2)) 90,
          MaxLat := decodeRange
            (encodeRange lat 90 >>> (32 - bits / 2) <<< (32 - bits / 2)) 90 +
              180 / 2 ^ (bits / 2),
          MinLng := decodeRange
            (encodeRange lng 180 >>> (32 - (bits - bits / 2))
              <<< (32 - (bits - bits / 2))) 180,
          MaxLng := decodeRange
            (encodeRange lng 180 >>> (32 - (bits - bits / 2))
              <<< (32 - (bits - bits / 2))) 180 + 360 / 2 ^ (bits - bits / 2) } := by
      simp only [BoundingBoxIntWithPrecision, EncodeIntWithPrecision, EncodeInt, encodeInt,
        errorWithPrecision]
      rw [hd1, hd2]
    rw [hbox]
    simp only [Box.Contains]
    rw [decide_eq_true hlatc.1, decide_eq_true (le_of_lt hlatc.2),
      decide_eq_true hlngc.1, decide_eq_true (le_of_lt hlngc.2)]
    rfl
  refine ⟨hint, fun chars hc1 hc12 => ?_⟩
  unfold BoundingBox
  rw [EncodeWithPrecision_length lat lng hc12,
    base32Decode_encodeWithPrecision lat lng hc12]
  exact hint (5 * chars) (by omega) (by omega)

/-- Witness for the amended C3 at `(0, 0)`, 1 bit and 1 character. -/
theorem boundingBox_contains_witness :
    (BoundingBoxIntWithPrecision (EncodeIntWithPrecision 0 0 1) 1).Contains 0 0 = true ∧
    (BoundingBox (EncodeWithPrecision 0 0 1)).Contains 0 0 = true :=
  ⟨(boundingBox_contains 0 0 (by norm_num) (by norm_num) (by norm_num) (by norm_num)).1
      1 (by norm_num) (by norm_num),
    (boundingBox_contains 0 0 (by norm_num) (by norm_num) (by norm_num) (by norm_num)).2
      1 (by norm_num) (by norm_num)⟩

/-! ### C6: decode-then-encode idempotence -/

theorem encodeDigit_charVal {c : Char} (h : ValidByte c = true) : encodeDigit (charVal c) = c := by
  have hmem : c ∈ alphabet := List.elem_iff.mp h
  have hidx : alphabet.indexOf c < alphabet.length := List.indexOf_lt_length.mpr hmem
  unfold encodeDigit charVal
  rw [List.getD_eq_getElem alphabet '0' hidx]
  exact List.getElem_indexOf hidx

theorem charsOf_base32Decode {s : List Char} (h : ∀ c ∈ s, ValidByte c = true) :
    charsOf (base32Decode s) s.length = s := by
  apply List.ext_getElem
  · rw [charsOf_length]
  · intro j h1 h2
    unfold charsOf
    rw [List.getElem_map, List.getElem_range]
    rw [base32Decode_testDigit h j h2]
    exact encodeDigit_charVal (h _ (List.getElem_mem h2))

theorem mod_two_pow_eq_zero {n p : Nat} (h : ∀ i, i < p → n.testBit i = false) :
    n % 2 ^ p = 0 := by
  apply Nat.eq_of_testBit_eq
  intro i
  rw [Nat.testBit_mod_two_pow, Nat.zero_testBit]
  by_cases hi : i < p
  · simp [hi, h i hi]
  · simp [hi]

theorem squash_mod_aligned {y bits : Nat} (hb64 : bits ≤ 64) :
    squash ((y <<< (64 - bits)) % U64) % 2 ^ (32 - bits / 2) = 0 ∧
    squash (((y <<< (64 - bits)) % U64) >>> 1) % 2 ^ (32 - (bits - bits / 2)) = 0 := by
  have hU : U64 = 2 ^ 64 := rfl
  have hFlt : (y <<< (64 - bits)) % U64 < 2 ^ 64 := by
    rw [hU]
    exact Nat.mod_lt _ (by positivity)
  constructor
  · apply mod_two_pow_eq_zero
    intro i hi
    rw [testBit_squash hFlt, hU, Nat.testBit_mod_two_pow, Nat.testBit_shiftLeft]
    have h2i : ¬ (2 * i ≥ 64 - bits) := by omega
    rw [decide_eq_false h2i]
    simp
  · have hFlt1 : ((y <<< (64 - bits)) % U64) >>> 1 < 2 ^ 64 := by
      calc ((y <<< (64 - bits)) % U64) >>> 1
          = ((y <<< (64 - bits)) % U64) / 2 ^ 1 := Nat.shiftRight_eq_div_pow _ _
        _ ≤ (y <<< (64 - bits)) % U64 := Nat.div_le_self _ _
        _ < 2 ^ 64 := hFlt
    apply mod_two_pow_eq_zero
    intro i hi
    rw [testBit_squash hFlt1, Nat.testBit_shiftRight, hU, Nat.testBit_mod_two_pow,
      Nat.testBit_shiftLeft]
    have h2i : ¬ (1 + 2 * i ≥ 64 - bits) := by omega
    rw [decide_eq_false h2i]
    simp

/-- Decoding an integer geohash with `Box.Round` and re-encoding at the same
bit precision reproduces the hash. -/
theorem roundtrip_int {y bits : Nat} (hb1 : 1 ≤ bits) (hb64 : bits ≤ 64)
    (hy : y < 2 ^ bits) :
    EncodeIntWithPrecision ((BoundingBoxIntWithPrecision y bits).Round).1
      ((BoundingBoxIntWithPrecision y bits).Round).2 bits = y := by
  have hbox : BoundingBoxIntWithPrecision y bits =
      { MinLat := decodeRange (squash ((y <<< (64 - bits)) % U64)) 90,
        MaxLat := decodeRange (squash ((y <<< (64 - bits)) % U64)) 90 + 180 / 2 ^ (bits / 2),
        MinLng := decodeRange (squash (((y <<< (64 - bits)) % U64) >>> 1)) 180,
        MaxLng := decodeRange (squash (((y <<< (64 - bits)) % U64) >>> 1)) 180 +
          360 / 2 ^ (bits - bits / 2) } := rfl
  rw [hbox]
  simp only [Box.Round]
  rw [add_sub_cancel_left, add_sub_cancel_left]
  unfold EncodeIntWithPrecision EncodeInt encodeInt
  have hw1 : (0 : ℚ) < 180 / 2 ^ (bits / 2) := by positivity
  have hw2 : (0 : ℚ) < 360 / 2 ^ (bits - bits / 2) := by positivity
  have hne1 : ∀ m : ℤ, (10 : ℚ) ^ m ≠ 180 / 2 ^ (bits / 2) := by
    intro m
    have := ten_zpow_ne_div (show (3 : ℕ) ∣ 180 by norm_num) (by norm_num) (bits / 2) m
    simpa using this
  have hne2 : ∀ m : ℤ, (10 : ℚ) ^ m ≠ 360 / 2 ^ (bits - bits / 2) := by
    intro m
    have := ten_zpow_ne_div (show (3 : ℕ) ∣ 360 by norm_num) (by norm_num) (bits - bits / 2) m
    simpa using this
  obtain ⟨hr1a, hr1b⟩ := round_in_cell hw1 (maxDecimalPower_lt hw1 hne1)
  obtain ⟨hr2a, hr2b⟩ := round_in_cell hw2 (maxDecimalPower_lt hw2 hne2)
  obtain ⟨hal1, hal2⟩ := squash_mod_aligned (y := y) hb64
  apply interleave_reencode (encodeRange_lt _ 90) (encodeRange_lt _ 180) hb1 hb64 hy
  · apply axis_reencode (show (0 : ℚ) < 90 by norm_num) (by omega : 32 - bits / 2 ≤ 32)
      (squash_lt _) hal1
    · exact hr1a
    · have hwidth : 2 * (90 : ℚ) / 2 ^ (32 - (32 - bits / 2)) = 180 / 2 ^ (bits / 2) := by
        have hidx : 32 - (32 - bits / 2) = bits / 2 := by omega
        rw [hidx]
        norm_num
      rw [hwidth]
      exact hr1b
  · apply axis_reencode (show (0 : ℚ) < 180 by norm_num)
      (by omega : 32 - (bits - bits / 2) ≤ 32) (squash_lt _) hal2
    · exact hr2a
    · have hwidth : 2 * (180 : ℚ) / 2 ^ (32 - (32 - (bits - bits / 2))) =
          360 / 2 ^ (bits - bits / 2) := by
        have hidx : 32 - (32 - (bits - bits / 2)) = bits - bits / 2 := by omega
        rw [hidx]
        norm_num
      rw [hwidth]
      exact hr2b

/-- C6: for every valid geohash string `H` of length `1..12`, decoding it and
re-encoding the resulting point at the same precision reproduces `H`. -/
theorem decode_then_encode (H : List Char) (hval : ∀ c ∈ H, ValidByte c = true)
    (hlen1 : 1 ≤ H.length) (hlen12 : H.length ≤ 12) :
    EncodeWithPrecision (Decode H).1 (Decode H).2 H.length = H := by
  have hylt : base32Decode H < 2 ^ (5 * H.length) := by
    have h1 := base32Decode_lt hval
    have h32 : (32 : Nat) ^ H.length = 2 ^ (5 * H.length) := by
      rw [show (32 : Nat) = 2 ^ 5 from rfl, ← pow_mul]
    rw [← h32]
    exact h1
  have hD : Decode H = (BoundingBoxIntWithPrecision (base32Decode H) (5 * H.length)).Round :=
    rfl
  unfold EncodeWithPrecision
  rw [hD, roundtrip_int (by omega) (by omega) hylt,
    drop_base32Encode _ hlen12, charsOf_base32Decode hval]

/-- Witness for C6 at the string "s". -/
theorem decode_then_encode_witness :
    EncodeWithPrecision (Decode ['s']).1 (Decode ['s']).2 (['s'] : List Char).length = ['s'] :=
  decode_then_encode ['s'] (by decide) (by decide) (by decide)

end Geohash
